import Mathlib

/-!
Verification of the RAG boundary contract of `langbot-plugin-sdk`.

The repository's two source files
(`api/entities/builtin/rag/host_services.py` and
`api/definition/components/knowledge_retriever/retriever.py`) declare the
contract between a host application and RAG plugins: the `EmbedderProtocol`
and `VectorStoreProtocol` capability protocols, the collection-scoped
`HostServices` facade, and the polymorphic plugin components
`KnowledgeRetriever` (legacy) and `RAGEngine` (full lifecycle).

The protocol and abstract-method bodies are not part of the repository
(the host and the plugins implement them); where a claim concerns their
behaviour, the corresponding definition below is modelled from the spec and
marked as such in its doc comment.  The class layout, the `__kind__`
discriminant tags, the set of abstract methods and the default (no-op)
lifecycle hooks are taken directly from `retriever.py`.
-/

namespace LangBotRAG

/-- A JSON-like value, used for JSON Schema documents and configuration
objects crossing the host/plugin boundary. -/
inductive Json where
  | null : Json
  | bool (b : Bool) : Json
  | num (n : Int) : Json
  | str (s : String) : Json
  | arr (elems : List Json) : Json
  | obj (fields : List (String × Json)) : Json

/-- Embedding vectors (`list[list[float]]` in the source; rationals here). -/
abbrev Vec := List Rat

/-- Per-vector metadata (`dict[str, Any]` in the source, modelled as a
string-valued association list, which is all the contract's filters use). -/
abbrev Meta := List (String × String)

/-- Metadata filters for `search` / `delete` / `count`: equality predicates
on metadata keys. -/
abbrev Filters := List (String × String)

/-- One stored vector of a collection: id, embedding, metadata. -/
structure Entry where
  id : String
  vector : Vec
  metadata : Meta
  deriving DecidableEq

/-- A vector collection: the stored entries. -/
abbrev Collection := List Entry

/-- A metadata record satisfies a filter set when every filtered key is
present with the demanded value. -/
def matchesFilters (m : Meta) (f : Filters) : Bool :=
  f.all fun kv => m.lookup kv.1 == some kv.2

/-- Modelled from the spec: the insert-or-replace-by-id step underlying
`VectorStoreProtocol.upsert` (whose implementation lives in the host, not in
this repository).  If the id is present the entry is updated in place,
otherwise a fresh entry is appended. -/
def upsertOne (col : Collection) (id : String) (v : Vec) (m : Meta) : Collection :=
  if col.any fun e => e.id == id then
    col.map fun e => if e.id == id then ⟨id, v, m⟩ else e
  else
    col ++ [⟨id, v, m⟩]

/-- Modelled from the spec: `VectorStoreProtocol.upsert` (host-implemented,
absent from this repository).  `ids`, `vectors` and, when present,
`metadata` must be equal-length parallel sequences; a mismatch is a
precondition violation (`none`).  Semantics: insert-or-replace by id. -/
def upsert (col : Collection) (ids : List String) (vectors : List Vec)
    (metadata : Option (List Meta)) : Option Collection :=
  if ids.length = vectors.length then
    match metadata with
    | some ms =>
      if ids.length = ms.length then
        some ((ids.zip (vectors.zip ms)).foldl
          (fun c t => upsertOne c t.1 t.2.1 t.2.2) col)
      else none
    | none =>
      some ((ids.zip vectors).foldl (fun c t => upsertOne c t.1 t.2 []) col)
  else none

/-- Which entries a `delete` call removes: union of the id set and the
filter predicate (spec: "by id set, by filter predicate, or both"). -/
def deleteTargets (ids : Option (List String)) (filters : Option Filters)
    (e : Entry) : Bool :=
  (match ids with
    | some xs => xs.contains e.id
    | none => false)
  ||
  (match filters with
    | some f => matchesFilters e.metadata f
    | none => false)

/-- Modelled from the spec: `VectorStoreProtocol.delete` (host-implemented,
absent from this repository).  Removes the targeted entries and returns the
count actually removed together with the remaining collection. -/
def delete (col : Collection) (ids : Option (List String))
    (filters : Option Filters) : Nat × Collection :=
  ((col.filter fun e => deleteTargets ids filters e).length,
   col.filter fun e => !(deleteTargets ids filters e))

/-- Modelled from the spec: `VectorStoreProtocol.count` (host-implemented,
absent from this repository): cardinality matching the filter, or of the
whole collection when no filter is given. -/
def count (col : Collection) (filters : Option Filters) : Nat :=
  (col.filter fun e =>
    match filters with
    | some f => matchesFilters e.metadata f
    | none => true).length

/-- One search hit: id, score and metadata, as described for
`VectorStoreProtocol.search`. -/
structure SearchResult where
  id : String
  score : Rat
  metadata : Meta
  deriving DecidableEq

/-- Squared euclidean distance over the zipped coordinates. -/
def sqDistance (q v : Vec) : Rat :=
  ((q.zip v).map fun p => (p.1 - p.2) ^ 2).sum

/-- Similarity score of an entry for a query vector (higher is closer; the
sign convention is implementation-defined in the spec, fixed here). -/
def entryScore (q : Vec) (e : Entry) : Rat :=
  - sqDistance q e.vector

/-- Insertion step of the descending-by-score sort used by `search`. -/
def insertDesc (x : SearchResult) : List SearchResult → List SearchResult
  | [] => [x]
  | y :: ys => if y.score ≤ x.score then x :: y :: ys else y :: insertDesc x ys

/-- Descending-by-score insertion sort used by `search`. -/
def sortDesc (l : List SearchResult) : List SearchResult :=
  l.foldr insertDesc []

/-- Modelled from the spec: `VectorStoreProtocol.search` (host-implemented,
absent from this repository).  Filters the candidate set by metadata, ranks
by decreasing similarity, and returns at most `top_k` results. -/
def search (col : Collection) (query_vector : Vec) (top_k : Nat)
    (filters : Option Filters) : List SearchResult :=
  let cand : Collection :=
    match filters with
    | some f => col.filter fun e => matchesFilters e.metadata f
    | none => col
  (sortDesc (cand.map fun e => ⟨e.id, entryScore query_vector e, e.metadata⟩)).take top_k

/-- Modelled from the spec: `EmbedderProtocol.embed_documents`
(host-implemented, absent from this repository), parametrised by the
per-text embedding function `emb` (`none` = that text cannot be embedded).
The whole batch is atomic: any failing element fails the call. -/
def embedDocuments (emb : String → Option Vec) : List String → Option (List Vec)
  | [] => some []
  | t :: ts =>
    match emb t with
    | none => none
    | some v =>
      match embedDocuments emb ts with
      | none => none
      | some vs => some (v :: vs)

/-- The host's vector storage: every collection, addressed by id. -/
def Store := String → Collection

/-- The host-side world visible through `HostServices`: the vector store and
the file storage subsystem (`storage_path` to file content, as lines). -/
structure World where
  store : Store
  files : List (String × List String)

/-- Update a single collection of the store. -/
def setCol (st : Store) (cid : String) (col : Collection) : Store :=
  fun c => if c = cid then col else st c

/-- Modelled from the spec: `HostServices.vector_store.upsert` as reached
through a facade bound to `collection_id = cid` (the facade implementation
lives in the host, not in this repository). -/
def hs_upsert (cid : String) (ids : List String) (vectors : List Vec)
    (metadata : Option (List Meta)) (w : World) : Option World :=
  (upsert (w.store cid) ids vectors metadata).map
    fun col => { w with store := setCol w.store cid col }

/-- Modelled from the spec: `HostServices.vector_store.delete` through a
facade bound to `collection_id = cid`. -/
def hs_delete (cid : String) (ids : Option (List String))
    (filters : Option Filters) (w : World) : Nat × World :=
  let r := delete (w.store cid) ids filters
  (r.1, { w with store := setCol w.store cid r.2 })

/-- Modelled from the spec: `HostServices.vector_store.search` through a
facade bound to `collection_id = cid` (read-only). -/
def hs_search (cid : String) (query_vector : Vec) (top_k : Nat)
    (filters : Option Filters) (w : World) : List SearchResult :=
  search (w.store cid) query_vector top_k filters

/-- Modelled from the spec: `HostServices.vector_store.count` through a
facade bound to `collection_id = cid` (read-only). -/
def hs_count (cid : String) (filters : Option Filters) (w : World) : Nat :=
  count (w.store cid) filters

/-- Open file streams held by the host's file service: the next fresh
handle and the handles currently open. -/
structure StreamState where
  next : Nat
  openHandles : List Nat
  deriving DecidableEq

/-- Modelled from the spec: `HostServices.get_file_stream`.  Succeeds when
`storage_path` exists, returning the content, a fresh `FileStreamHandle`
and the stream state with that handle open; it never touches the vector
store. -/
def hs_get_file_stream (w : World) (ss : StreamState) (storage_path : String) :
    Option (List String × Nat × StreamState) :=
  (w.files.lookup storage_path).map
    fun content => (content, ss.next, ⟨ss.next + 1, ss.next :: ss.openHandles⟩)

/-- Modelled from the spec: `HostServices.close_file_stream`.  Releases the
handle; it never touches the vector store. -/
def hs_close_file_stream (ss : StreamState) (h : Nat) : StreamState :=
  { ss with openHandles := ss.openHandles.erase h }

/-- The error taxonomy of the contract layer, as raised across the
boundary by `ingest` / `delete_document` (retriever.py docstrings). -/
inductive RAGError where
  | parsingError : RAGError
  | chunkingError : RAGError
  | hostServiceError : RAGError
  | ingestionError : RAGError
  deriving DecidableEq

/-- `IngestionContext`: file reference, chunking configuration and
knowledge-base/document identity handed to `RAGEngine.ingest`. -/
structure IngestionContext where
  kb_id : String
  storage_path : String
  document_id : String
  chunk_size : Nat
  deriving DecidableEq

/-- `IngestionResult`: status and metadata returned by `RAGEngine.ingest`. -/
structure IngestionResult where
  success : Bool
  chunk_count : Nat
  document_id : String
  deriving DecidableEq

/-- Group a list into runs of `size` elements (fuelled by the length). -/
def chunkGroups (size : Nat) : Nat → List String → List (List String)
  | 0, _ => []
  | _, [] => []
  | fuel + 1, l => l.take size :: chunkGroups size fuel (l.drop size)

/-- Chunk file content (lines) into chunks of `size` lines each. -/
def chunkText (size : Nat) (lines : List String) : List String :=
  (chunkGroups size lines.length lines).map fun g => String.join g

/-- Vector id of chunk `i` of a document. -/
def chunkId (document_id : String) (i : Nat) : String :=
  document_id ++ "_" ++ toString i

/-- All vector ids written by one ingestion attempt of `n` chunks. -/
def attemptIds (document_id : String) (n : Nat) : List String :=
  (List.range n).map fun i => chunkId document_id i

/-- Metadata attached to chunk `i` of a document; keyed on the document id
so that `delete_document` can target it with a metadata filter. -/
def chunkMeta (document_id : String) (i : Nat) : Meta :=
  [("document_id", document_id), ("chunk_index", toString i)]

/-- The `(id, vector, metadata)` triples one ingestion attempt upserts. -/
def buildTriples (document_id : String) (n : Nat) (vecs : List Vec) :
    List (String × Vec × Meta) :=
  ((List.range n).zip vecs).map
    fun p => (chunkId document_id p.1, p.2, chunkMeta document_id p.1)

/-- Singleton-batch upsert through the facade (always succeeds: the
parallel sequences have length one). -/
def hs_upsert_single (cid : String) (id : String) (v : Vec) (m : Meta)
    (w : World) : World :=
  { w with store := setCol w.store cid (upsertOne (w.store cid) id v m) }

/-- Injected host-side faults used to exercise the failure paths of the
`ingest` model: plugin-level parse failure, and a vector-store failure at
the given upsert call (counting from 0). -/
structure IngestFaults where
  parseFails : Bool
  upsertFailAt : Option Nat
  deriving DecidableEq

/-- Write the chunk triples one upsert call at a time; the call at index
`failAt` (when given) fails with a vector-store error, leaving the calls
before it written (partial write).  Returns the success flag and the world
as left behind. -/
def writeChunks (cid : String) : List (String × Vec × Meta) → Option Nat →
    World → Bool × World
  | [], _, w => (true, w)
  | _ :: _, some 0, w => (false, w)
  | t :: ts, some (k + 1), w =>
    writeChunks cid ts (some k) (hs_upsert_single cid t.1 t.2.1 t.2.2 w)
  | t :: ts, none, w =>
    writeChunks cid ts none (hs_upsert_single cid t.1 t.2.1 t.2.2 w)

/-- Outcome of one `ingest` call: the returned result or raised error, the
world left behind, and the file-stream handles successfully opened and the
handles closed during the call. -/
structure IngestOutcome where
  result : Except RAGError IngestionResult
  world : World
  opened : List Nat
  closed : List Nat

/-- Modelled from the spec: `RAGEngine.ingest` (an abstract method of
retriever.py; its body is plugin-implemented and absent from this
repository).  Reads the file via `get_file_stream`, parses, chunks
(`chunk_size = 0` makes the strategy inapplicable), embeds via the
embedder, upserts via the vector store, releasing the stream on every exit
path and rolling back partial writes before raising. -/
def ingest (cid : String) (emb : String → Option Vec) (ctx : IngestionContext)
    (faults : IngestFaults) (w : World) (ss : StreamState) : IngestOutcome :=
  match hs_get_file_stream w ss ctx.storage_path with
  | none => ⟨.error .hostServiceError, w, [], []⟩
  | some (content, h, _) =>
    if faults.parseFails then ⟨.error .parsingError, w, [h], [h]⟩
    else if ctx.chunk_size = 0 then ⟨.error .chunkingError, w, [h], [h]⟩
    else
      let chunks := chunkText ctx.chunk_size content
      match embedDocuments emb chunks with
      | none => ⟨.error .hostServiceError, w, [h], [h]⟩
      | some vecs =>
        match writeChunks cid (buildTriples ctx.document_id chunks.length vecs)
            faults.upsertFailAt w with
        | (true, wDone) =>
          ⟨.ok ⟨true, chunks.length, ctx.document_id⟩, wDone, [h], [h]⟩
        | (false, wPart) =>
          ⟨.error .hostServiceError,
            (hs_delete cid (some (attemptIds ctx.document_id chunks.length))
              none wPart).2, [h], [h]⟩

/-- Modelled from the spec: `RAGEngine.delete_document` (an abstract method
of retriever.py; its body is plugin-implemented and absent from this
repository).  Deletes via `vector_store.delete` with a metadata filter
keyed on the document id; returns whether anything was found and removed;
wraps an underlying vector-store failure (injected through `deleteFails`)
as `hostServiceError`. -/
def delete_document (cid : String) (document_id : String) (deleteFails : Bool)
    (w : World) : Except RAGError (Bool × World) :=
  if deleteFails then .error .hostServiceError
  else
    let r := hs_delete cid none (some [("document_id", document_id)]) w
    .ok (0 < r.1, r.2)

/-- Modelled from the spec: the observable state of a `RAGEngine` instance
for the schema getters — an engine version (fixed per release) and the
engine's mutable plugin-private state. -/
structure EngineModel where
  version : Nat
  internalState : List String

/-- The creation-settings JSON Schema document of an engine version (shaped
after the Draft-7 example in the `get_creation_settings_schema`
docstring). -/
def creationSchemaOf (version : Nat) : Json :=
  Json.obj
    [("type", Json.str "object"),
     ("properties", Json.obj
       [("index_mode", Json.obj
          [("type", Json.str "string"),
           ("enum", Json.arr [Json.str "general", Json.str "qa",
                              Json.str "parent_child"]),
           ("default", Json.str "general"),
           ("title", Json.str "Indexing Mode")]),
        ("chunk_size", Json.obj
          [("type", Json.str "integer"),
           ("minimum", Json.num 100),
           ("maximum", Json.num 2000),
           ("default", Json.num 512),
           ("title", Json.str "Chunk Size")])]),
     ("required", Json.arr [Json.str "index_mode"]),
     ("engine_version", Json.num version)]

/-- The retrieval-settings JSON Schema document of an engine version
(shaped after the Draft-7 example in the `get_retrieval_settings_schema`
docstring). -/
def retrievalSchemaOf (version : Nat) : Json :=
  Json.obj
    [("type", Json.str "object"),
     ("properties", Json.obj
       [("top_k", Json.obj
          [("type", Json.str "integer"),
           ("minimum", Json.num 1),
           ("maximum", Json.num 100),
           ("default", Json.num 5),
           ("title", Json.str "Top K Results")]),
        ("similarity_threshold", Json.obj
          [("type", Json.str "number"),
           ("default", Json.num 0),
           ("title", Json.str "Similarity Threshold")]),
        ("enable_rerank", Json.obj
          [("type", Json.str "boolean"),
           ("default", Json.bool false),
           ("title", Json.str "Enable Reranking")])]),
     ("engine_version", Json.num version)]

/-- Modelled from the spec: `RAGEngine.get_creation_settings_schema` (an
abstract method of retriever.py; plugin bodies are absent from this
repository).  Pure state-passing form: the returned document is a function
of the engine version alone, and the engine state is returned unchanged. -/
def get_creation_settings_schema (e : EngineModel) : Json × EngineModel :=
  (creationSchemaOf e.version, e)

/-- Modelled from the spec: `RAGEngine.get_retrieval_settings_schema`, in
the same pure state-passing form. -/
def get_retrieval_settings_schema (e : EngineModel) : Json × EngineModel :=
  (retrievalSchemaOf e.version, e)

/-- The classes declared by retriever.py, plus their common base from
`components/base.py`. -/
inductive PyClass where
  | polymorphicComponent : PyClass
  | knowledgeRetriever : PyClass
  | ragEngine : PyClass
  deriving DecidableEq

/-- The direct base class of each class, as written in retriever.py:
`class KnowledgeRetriever(PolymorphicComponent)` and
`class RAGEngine(PolymorphicComponent)`. -/
def superclass : PyClass → Option PyClass
  | .polymorphicComponent => none
  | .knowledgeRetriever => some .polymorphicComponent
  | .ragEngine => some .polymorphicComponent

/-- All proper ancestors of a class under `superclass`. -/
def ancestors : PyClass → List PyClass
  | .polymorphicComponent => []
  | .knowledgeRetriever => [.polymorphicComponent]
  | .ragEngine => [.polymorphicComponent]

/-- `a` is a proper subclass of `b`. -/
def isSubclassOf (a b : PyClass) : Bool :=
  (ancestors a).contains b

/-- The `__kind__` discriminant tag of each class, as written in
retriever.py. -/
def kindTag : PyClass → Option String
  | .polymorphicComponent => none
  | .knowledgeRetriever => some "KnowledgeRetriever"
  | .ragEngine => some "RAGEngine"

/-- Host-side dispatch on the discriminant tag alone. -/
def dispatchByKind (tag : String) : Option PyClass :=
  if tag = "KnowledgeRetriever" then some .knowledgeRetriever
  else if tag = "RAGEngine" then some .ragEngine
  else none

/-- The boundary method signatures of the two component variants.  The two
`retrieve` signatures differ: the legacy one returns a bare list of
`RetrievalResultEntry`, the full one a structured `RetrievalResponse`. -/
inductive MethodSig where
  | retrieveLegacy : MethodSig
  | retrieveFull : MethodSig
  | ingestSig : MethodSig
  | deleteDocumentSig : MethodSig
  | onCreateSig : MethodSig
  | onDeleteSig : MethodSig
  | creationSchemaSig : MethodSig
  | retrievalSchemaSig : MethodSig
  deriving DecidableEq

/-- The capability set of `KnowledgeRetriever`, as declared in
retriever.py: retrieval only. -/
def knowledgeRetrieverCapabilities : List MethodSig := [.retrieveLegacy]

/-- The capability set of `RAGEngine`, as declared in retriever.py. -/
def ragEngineCapabilities : List MethodSig :=
  [.onCreateSig, .onDeleteSig, .ingestSig, .deleteDocumentSig, .retrieveFull,
   .creationSchemaSig, .retrievalSchemaSig]

/-- The host-service calls a hook body could make. -/
inductive HostCall where
  | embedCall : HostCall
  | upsertCall : HostCall
  | searchCall : HostCall
  | deleteCall : HostCall
  | countCall : HostCall
  | fileOpenCall : HostCall
  | fileCloseCall : HostCall
  deriving DecidableEq

/-- The default body of `RAGEngine.on_knowledge_base_create` is `pass`
(retriever.py): it returns `None`, makes no host-service calls and leaves
the world untouched.  Embedded as an explicit state-and-trace function. -/
def on_knowledge_base_create (kb_id : String) (config : Json) (w : World) :
    Option Json × World × List HostCall :=
  (none, w, [])

/-- The default body of `RAGEngine.on_knowledge_base_delete` is `pass`
(retriever.py): it returns `None`, makes no host-service calls and leaves
the world untouched. -/
def on_knowledge_base_delete (kb_id : String) (w : World) :
    Option Json × World × List HostCall :=
  (none, w, [])

/-- The methods of `RAGEngine` carrying `@abc.abstractmethod` in
retriever.py. -/
def ragAbstractMethods : List String :=
  ["ingest", "delete_document", "retrieve", "get_creation_settings_schema",
   "get_retrieval_settings_schema"]

/-- The methods of `RAGEngine` with a concrete default body in
retriever.py. -/
def ragOptionalHooks : List String :=
  ["on_knowledge_base_create", "on_knowledge_base_delete"]

/-! ### Helper lemmas -/

theorem embedDocuments_length (emb : String → Option Vec) :
    ∀ (texts : List String) (out : List Vec),
      embedDocuments emb texts = some out → out.length = texts.length := by
  intro texts
  induction texts with
  | nil => intro out h; simp [embedDocuments] at h; simp [← h]
  | cons t ts ih =>
    intro out h
    simp only [embedDocuments] at h
    cases hv : emb t with
    | none => rw [hv] at h; exact absurd h (by simp)
    | some v =>
      rw [hv] at h
      cases hrest : embedDocuments emb ts with
      | none => rw [hrest] at h; exact absurd h (by simp)
      | some vs =>
        rw [hrest] at h
        simp only [Option.some.injEq] at h
        subst h
        simp [ih vs hrest]

theorem embedDocuments_isSome (emb : String → Option Vec) (l : List String) :
    (embedDocuments emb l).isSome = true ↔ ∀ t ∈ l, (emb t).isSome = true := by
  induction l with
  | nil => simp [embedDocuments]
  | cons t ts ih =>
    simp only [embedDocuments]
    cases hv : emb t with
    | none => simp [hv]
    | some v =>
      cases hrest : embedDocuments emb ts with
      | none =>
        have : ¬ ∀ x ∈ ts, (emb x).isSome = true := by
          intro hall
          rw [← ih] at hall
          rw [hrest] at hall
          exact absurd hall (by simp)
        simp [hv, this]
      | some vs =>
        have hts : ∀ x ∈ ts, (emb x).isSome = true := by
          rw [← ih, hrest]; simp
        simp only [hv, hrest, Option.isSome_some, true_iff]
        intro x hx
        rcases List.mem_cons.mp hx with h | h
        · subst h; simp [hv]
        · exact hts x h

end LangBotRAG

namespace LangBotRAG

/-! ### Claim theorems -/

/-- C9: the two component variants carry distinct discriminant kind tags
(`"KnowledgeRetriever"` for `KnowledgeRetriever`, `"RAGEngine"` for
`RAGEngine`), the tags suffice for host dispatch, neither class is a
subclass of the other, and their capability sets are disjoint. -/
theorem component_kind_tags_distinct :
    kindTag PyClass.knowledgeRetriever = some "KnowledgeRetriever" ∧
    kindTag PyClass.ragEngine = some "RAGEngine" ∧
    (kindTag PyClass.knowledgeRetriever == kindTag PyClass.ragEngine) = false ∧
    dispatchByKind "KnowledgeRetriever" = some PyClass.knowledgeRetriever ∧
    dispatchByKind "RAGEngine" = some PyClass.ragEngine ∧
    isSubclassOf PyClass.knowledgeRetriever PyClass.ragEngine = false ∧
    isSubclassOf PyClass.ragEngine PyClass.knowledgeRetriever = false ∧
    knowledgeRetrieverCapabilities.all
      (fun m => !(ragEngineCapabilities.contains m)) = true := by
  decide

/-- C10: the default lifecycle hooks `on_knowledge_base_create` and
`on_knowledge_base_delete` are no-ops — they return `None`, make no
host-service calls and leave the world (hence all vector-store state)
unchanged — and they are not among the abstract methods, which are exactly
the five `ingest`, `delete_document`, `retrieve`,
`get_creation_settings_schema`, `get_retrieval_settings_schema`. -/
theorem default_lifecycle_hooks_noop (kb_id : String) (config : Json) (w : World) :
    on_knowledge_base_create kb_id config w = (none, w, []) ∧
    on_knowledge_base_delete kb_id w = (none, w, []) ∧
    (∀ c, (on_knowledge_base_create kb_id config w).2.1.store c = w.store c) ∧
    (∀ c, (on_knowledge_base_delete kb_id w).2.1.store c = w.store c) ∧
    ragOptionalHooks.all (fun m => !(ragAbstractMethods.contains m)) = true ∧
    ragAbstractMethods = ["ingest", "delete_document", "retrieve",
      "get_creation_settings_schema", "get_retrieval_settings_schema"] := by
  exact ⟨rfl, rfl, fun c => rfl, fun c => rfl, by decide, rfl⟩

/-- C8: the schema getters are pure, side-effect-free and deterministic:
they leave the engine state unchanged, two successive calls on the same
instance return structurally identical documents, and any two engine states
of the same version (in particular one with no knowledge base yet) return
the same documents. -/
theorem schema_getters_pure_and_stable (e : EngineModel) :
    (get_creation_settings_schema e).2 = e ∧
    (get_retrieval_settings_schema e).2 = e ∧
    (get_creation_settings_schema e).1 =
      (get_creation_settings_schema (get_creation_settings_schema e).2).1 ∧
    (get_retrieval_settings_schema e).1 =
      (get_retrieval_settings_schema (get_retrieval_settings_schema e).2).1 ∧
    (∀ e2 : EngineModel, e2.version = e.version →
      (get_creation_settings_schema e2).1 = (get_creation_settings_schema e).1 ∧
      (get_retrieval_settings_schema e2).1 = (get_retrieval_settings_schema e).1) := by
  refine ⟨rfl, rfl, rfl, rfl, fun e2 h => ?_⟩
  simp [get_creation_settings_schema, get_retrieval_settings_schema, h]

/-- Witness for C8 at a concrete input: an engine state that already has a
knowledge base and a fresh one of the same version return the same
creation-settings document. -/
theorem schema_getters_pure_and_stable_witness :
    (EngineModel.mk 1 ["kb1"]).version = (EngineModel.mk 1 []).version ∧
    (get_creation_settings_schema (EngineModel.mk 1 ["kb1"])).1 =
      (get_creation_settings_schema (EngineModel.mk 1 [])).1 :=
  ⟨rfl, ((schema_getters_pure_and_stable (EngineModel.mk 1 [])).2.2.2.2
    (EngineModel.mk 1 ["kb1"]) rfl).1⟩

/-- C5: a successful `embed_documents` batch has output length equal to
input length with index-to-index correspondence (hence the property is
preserved under any permutation of the batch, whose success is moreover
equivalent to the original batch's); any element that cannot be embedded
fails the whole batch with no partial success. -/
theorem embed_documents_batch (emb : String → Option Vec) (texts : List String) :
    (∀ out, embedDocuments emb texts = some out →
      out.length = texts.length ∧
      ∀ i, ∀ hi : i < texts.length, ∀ ho : i < out.length,
        emb texts[i] = some out[i]) ∧
    ((∃ t ∈ texts, emb t = none) → embedDocuments emb texts = none) ∧
    (∀ texts2, texts.Perm texts2 →
      ((embedDocuments emb texts2).isSome ↔ (embedDocuments emb texts).isSome)) := by
  refine ⟨?_, ?_, ?_⟩
  · intro out hout
    refine ⟨embedDocuments_length emb texts out hout, ?_⟩
    induction texts generalizing out with
    | nil => intro i hi; exact absurd hi (by simp)
    | cons t ts ih =>
      simp only [embedDocuments] at hout
      cases hv : emb t with
      | none => rw [hv] at hout; exact absurd hout (by simp)
      | some v =>
        rw [hv] at hout
        cases hrest : embedDocuments emb ts with
        | none => rw [hrest] at hout; exact absurd hout (by simp)
        | some vs =>
          rw [hrest] at hout
          simp only [Option.some.injEq] at hout
          subst hout
          intro i hi ho
          cases i with
          | zero => simpa using hv
          | succ j =>
            have hj : j < ts.length := by simpa using hi
            have hj2 : j < vs.length := by simpa using ho
            simpa using ih vs hrest j hj hj2
  · intro hex
    obtain ⟨t, ht, hnone⟩ := hex
    by_contra hne
    have hs : (embedDocuments emb texts).isSome = true := by
      cases h : embedDocuments emb texts with
      | none => exact absurd h hne
      | some _ => simp
    have := (embedDocuments_isSome emb texts).mp hs t ht
    rw [hnone] at this
    exact absurd this (by simp)
  · intro texts2 hperm
    rw [embedDocuments_isSome, embedDocuments_isSome]
    constructor
    · intro hall t ht; exact hall t (hperm.mem_iff.mp ht)
    · intro hall t ht; exact hall t (hperm.mem_iff.mpr ht)

/-- Witness for C5 at a concrete input: a two-element batch embeds
successfully with matching length and index correspondence at index 1, and
the reversed batch is equi-successful. -/
theorem embed_documents_batch_witness :
    embedDocuments (fun t => some [(t.length : Rat)]) ["a", "bb"] =
      some [[(1 : Rat)], [(2 : Rat)]] ∧
    [(1 : Rat)] = [(1 : Rat)] ∧
    List.Perm ["a", "bb"] ["bb", "a"] ∧
    ((embedDocuments (fun t => some [(t.length : Rat)]) ["bb", "a"]).isSome ↔
      (embedDocuments (fun t => some [(t.length : Rat)]) ["a", "bb"]).isSome) := by
  refine ⟨by decide, rfl, ?_, ?_⟩
  · exact List.Perm.swap "bb" "a" []
  · exact (embed_documents_batch (fun t => some [(t.length : Rat)])
      ["a", "bb"]).2.2 ["bb", "a"] (List.Perm.swap "bb" "a" [])

theorem mem_insertDesc (x r : SearchResult) (l : List SearchResult) :
    r ∈ insertDesc x l ↔ r = x ∨ r ∈ l := by
  induction l with
  | nil => simp [insertDesc]
  | cons y ys ih =>
    simp only [insertDesc]
    split
    · simp [List.mem_cons]
    · simp only [List.mem_cons, ih]
      tauto

theorem mem_sortDesc (r : SearchResult) (l : List SearchResult) :
    r ∈ sortDesc l ↔ r ∈ l := by
  induction l with
  | nil => simp [sortDesc]
  | cons y ys ih =>
    have hcons : sortDesc (y :: ys) = insertDesc y (sortDesc ys) := rfl
    rw [hcons, mem_insertDesc, ih]
    simp [List.mem_cons]

theorem mem_search_id (col : Collection) (q : Vec) (k : Nat)
    (f : Option Filters) (r : SearchResult) (hr : r ∈ search col q k f) :
    ∃ e ∈ col, r.id = e.id := by
  unfold search at hr
  have hr2 := List.take_subset k _ hr
  rw [mem_sortDesc] at hr2
  rcases f with _ | fl
  · simp only [List.mem_map] at hr2
    obtain ⟨e, he, hre⟩ := hr2
    exact ⟨e, he, by rw [← hre]⟩
  · simp only [List.mem_map] at hr2
    obtain ⟨e, he, hre⟩ := hr2
    exact ⟨e, (List.mem_filter.mp he).1, by rw [← hre]⟩

theorem deleteTargets_ids_only (xs : List String) (e : Entry) :
    deleteTargets (some xs) none e = xs.contains e.id := by
  simp [deleteTargets]

theorem mem_delete_ids (col : Collection) (xs : List String) (e : Entry)
    (he : e ∈ (delete col (some xs) none).2) : e.id ∉ xs := by
  unfold delete at he
  have hkeep := (List.mem_filter.mp he).2
  rw [deleteTargets_ids_only] at hkeep
  simp only [Bool.not_eq_eq_eq_not, Bool.not_true] at hkeep
  intro hmem
  rw [List.contains_eq_any_beq] at hkeep
  have hne : ¬ ∃ x ∈ xs, (e.id == x) = true := by
    intro hex
    obtain ⟨x, hx, hbeq⟩ := hex
    have := List.any_eq_true.mpr ⟨x, hx, hbeq⟩
    simp_all
  exact hne ⟨e.id, hmem, by simp⟩

theorem delete_eq_of_no_targets (col : Collection) (ids : Option (List String))
    (filters : Option Filters)
    (hall : ∀ e ∈ col, deleteTargets ids filters e = false) :
    delete col ids filters = (0, col) := by
  unfold delete
  have h1 : (col.filter fun e => deleteTargets ids filters e) = [] := by
    rw [List.filter_eq_nil_iff]
    intro e he
    simp [hall e he]
  have h2 : (col.filter fun e => !(deleteTargets ids filters e)) = col := by
    rw [List.filter_eq_self]
    intro e he
    simp [hall e he]
  rw [h1, h2]
  rfl

/-- C6: `delete` is idempotent and returns the count actually removed —
deleting an absent id is not an error and contributes 0, repeating the same
delete removes nothing and returns 0 — and after `delete(ids = X)` no
remaining entry, hence no `search` result (and nothing `count` counts),
carries an id in `X`. -/
theorem vector_delete_idempotent (col : Collection) (xs : List String)
    (q : Vec) (k : Nat) (f : Option Filters) :
    (∀ x, x ∉ col.map Entry.id → delete col (some [x]) none = (0, col)) ∧
    (delete (delete col (some xs) none).2 (some xs) none =
      (0, (delete col (some xs) none).2)) ∧
    (∀ e ∈ (delete col (some xs) none).2, e.id ∉ xs) ∧
    (∀ r ∈ search (delete col (some xs) none).2 q k f, r.id ∉ xs) := by
  refine ⟨?_, ?_, mem_delete_ids col xs, ?_⟩
  · intro x hx
    apply delete_eq_of_no_targets
    intro e he
    rw [deleteTargets_ids_only]
    have hne : ¬ e.id = x := by
      intro hex
      exact hx (by rw [← hex]; exact List.mem_map_of_mem Entry.id he)
    simp [hne]
  · apply delete_eq_of_no_targets
    intro e he
    unfold delete at he
    have := (List.mem_filter.mp he).2
    simpa using this
  · intro r hr
    obtain ⟨e, he, hid⟩ := mem_search_id _ q k f r hr
    rw [hid]
    exact mem_delete_ids col xs e he

/-- Witness for C6 at a concrete input: deleting the absent id `"b"` from a
one-entry collection removes nothing and returns 0. -/
theorem vector_delete_idempotent_witness :
    ("b" ∉ ([⟨"a", [1], []⟩] : Collection).map Entry.id) ∧
    delete ([⟨"a", [1], []⟩] : Collection) (some ["b"]) none =
      (0, ([⟨"a", [1], []⟩] : Collection)) :=
  ⟨by decide,
   (vector_delete_idempotent [⟨"a", [1], []⟩] [] [] 0 none).1 "b" (by decide)⟩

theorem colIds_upsertOne (col : Collection) (id : String) (v : Vec) (m : Meta) :
    (upsertOne col id v m).map Entry.id =
      if col.any (fun e => e.id == id) then col.map Entry.id
      else col.map Entry.id ++ [id] := by
  unfold upsertOne
  split
  · rw [List.map_map]
    apply List.map_congr_left
    intro e _
    by_cases h : (e.id == id) = true
    · simp only [Function.comp_apply, h, if_pos]
      exact (eq_of_beq h).symm
    · have hne : ¬ e.id = id := by simpa using h
      simp [Function.comp_apply, h, hne]
  · simp

theorem nodup_upsertOne (col : Collection) (id : String) (v : Vec) (m : Meta)
    (h : (col.map Entry.id).Nodup) :
    ((upsertOne col id v m).map Entry.id).Nodup := by
  rw [colIds_upsertOne]
  split
  · exact h
  case isFalse hany =>
    have hid : id ∉ col.map Entry.id := by
      intro hmem
      obtain ⟨e, he, hide⟩ := List.mem_map.mp hmem
      exact hany (List.any_eq_true.mpr ⟨e, he, by simp [hide]⟩)
    simp [List.nodup_append, h, hid]

theorem nodup_foldl_upsert3 :
    ∀ (ts : List (String × Vec × Meta)) (col : Collection),
      (col.map Entry.id).Nodup →
      ((ts.foldl (fun c t => upsertOne c t.1 t.2.1 t.2.2) col).map Entry.id).Nodup := by
  intro ts
  induction ts with
  | nil => intro col h; simpa using h
  | cons t ts ih =>
    intro col h
    simp only [List.foldl_cons]
    exact ih _ (nodup_upsertOne col t.1 t.2.1 t.2.2 h)

theorem nodup_foldl_upsert2 :
    ∀ (ts : List (String × Vec)) (col : Collection),
      (col.map Entry.id).Nodup →
      ((ts.foldl (fun c t => upsertOne c t.1 t.2 []) col).map Entry.id).Nodup := by
  intro ts
  induction ts with
  | nil => intro col h; simpa using h
  | cons t ts ih =>
    intro col h
    simp only [List.foldl_cons]
    exact ih _ (nodup_upsertOne col t.1 t.2 [] h)

theorem upsertOne_inplace (col : Collection) (id : String) (v : Vec) (m : Meta)
    (h : col.any (fun e => e.id == id) = true) :
    (upsertOne col id v m).length = col.length ∧
    (⟨id, v, m⟩ : Entry) ∈ upsertOne col id v m ∧
    ∀ e ∈ upsertOne col id v m, e.id = id → e = ⟨id, v, m⟩ := by
  unfold upsertOne
  rw [if_pos h]
  refine ⟨List.length_map col _, ?_, ?_⟩
  · obtain ⟨e0, he0, hbeq⟩ := List.any_eq_true.mp h
    exact List.mem_map.mpr ⟨e0, he0, by simp [hbeq]⟩
  · intro e he hid
    obtain ⟨e0, he0, heq⟩ := List.mem_map.mp he
    by_cases hb : (e0.id == id) = true
    · rw [if_pos hb] at heq
      exact heq.symm
    · rw [if_neg hb] at heq
      subst heq
      exact absurd (by simp [hid]) hb

/-- C7: `ids`, `vectors` and (when present) `metadata` must be equal-length
parallel sequences — a mismatch is a precondition violation (`none`) — and
under that precondition `upsert` is insert-or-replace by id: re-upserting
an existing id updates the entry in place (same collection size, new value,
no second entry under that id) and id uniqueness within the collection is
preserved. -/
theorem upsert_parallel_sequences (col : Collection) (ids : List String)
    (vectors : List Vec) (metadata : Option (List Meta)) :
    (ids.length ≠ vectors.length → upsert col ids vectors metadata = none) ∧
    (∀ ms, metadata = some ms → ids.length ≠ ms.length →
      upsert col ids vectors metadata = none) ∧
    (∀ col2, upsert col ids vectors metadata = some col2 →
      (col.map Entry.id).Nodup → (col2.map Entry.id).Nodup) ∧
    (∀ id v m, col.any (fun e => e.id == id) = true →
      upsert col [id] [v] (some [m]) = some (upsertOne col id v m) ∧
      (upsertOne col id v m).length = col.length ∧
      (⟨id, v, m⟩ : Entry) ∈ upsertOne col id v m ∧
      (∀ e ∈ upsertOne col id v m, e.id = id → e = ⟨id, v, m⟩)) := by
  refine ⟨?_, ?_, ?_, ?_⟩
  · intro hne
    simp [upsert, hne]
  · intro ms hms hne
    subst hms
    by_cases hl : ids.length = vectors.length
    · have hne2 : ¬ vectors.length = ms.length := by rw [← hl]; exact hne
      simp [upsert, hl, hne2]
    · simp [upsert, hl]
  · intro col2 hcol2 hnd
    rcases metadata with _ | ms
    · unfold upsert at hcol2
      split at hcol2
      · simp only [Option.some.injEq] at hcol2
        subst hcol2
        exact nodup_foldl_upsert2 _ col hnd
      · exact absurd hcol2 (by simp)
    · unfold upsert at hcol2
      split at hcol2
      · simp only [Option.some.injEq] at hcol2
        split at hcol2
        · simp only [Option.some.injEq] at hcol2
          subst hcol2
          exact nodup_foldl_upsert3 _ col hnd
        · exact absurd hcol2 (by simp)
      · exact absurd hcol2 (by simp)
  · intro id v m hany
    have hsingle : upsert col [id] [v] (some [m]) = some (upsertOne col id v m) := rfl
    exact ⟨hsingle, upsertOne_inplace col id v m hany⟩

/-- Witness for C7 at concrete inputs: a length-mismatched call is
rejected, and re-upserting the existing id `"a"` into a one-entry
collection updates in place, keeping the collection size at one. -/
theorem upsert_parallel_sequences_witness :
    (([("a" : String)].length ≠ ([] : List Vec).length) ∧
      upsert ([⟨"a", [1], []⟩] : Collection) ["a"] [] none = none) ∧
    ((([⟨"a", [1], []⟩] : Collection).any (fun e => e.id == "a") = true) ∧
      upsert ([⟨"a", [1], []⟩] : Collection) ["a"] [[2]] (some [[("doc", "d")]]) =
        some (upsertOne [⟨"a", [1], []⟩] "a" [2] [("doc", "d")]) ∧
      (upsertOne ([⟨"a", [1], []⟩] : Collection) "a" [2] [("doc", "d")]).length = 1) := by
  have h1 := (upsert_parallel_sequences [⟨"a", [1], []⟩] ["a"] [] none).1 (by decide)
  have h4 := (upsert_parallel_sequences [⟨"a", [1], []⟩] ["a"] [[2]]
    (some [[("doc", "d")]])).2.2.2 "a" [2] [("doc", "d")] (by decide)
  exact ⟨⟨by decide, h1⟩, ⟨by decide, h4.1, h4.2.1⟩⟩

/-- C1: every operation a `HostServices` instance exposes addresses only
the collection bound as its `collection_id`: the mutating vector-store
operations leave every other collection (and the file map) unchanged, the
read-only operations depend only on the bound collection, and the
file-stream methods neither read nor write any collection. -/
theorem hostservices_collection_scoped (cid : String) (w : World) :
    (∀ ids vectors metadata w2, hs_upsert cid ids vectors metadata w = some w2 →
      w2.files = w.files ∧ ∀ c, c ≠ cid → w2.store c = w.store c) ∧
    (∀ ids filters, (hs_delete cid ids filters w).2.files = w.files ∧
      ∀ c, c ≠ cid → (hs_delete cid ids filters w).2.store c = w.store c) ∧
    (∀ w2 q k filters, w2.store cid = w.store cid →
      hs_search cid q k filters w2 = hs_search cid q k filters w) ∧
    (∀ w2 filters, w2.store cid = w.store cid →
      hs_count cid filters w2 = hs_count cid filters w) ∧
    (∀ w2 ss p, w2.files = w.files →
      hs_get_file_stream w2 ss p = hs_get_file_stream w ss p) := by
  refine ⟨?_, ?_, ?_, ?_, ?_⟩
  · intro ids vectors metadata w2 h
    unfold hs_upsert at h
    rcases Option.map_eq_some'.mp h with ⟨col, hcol, hw2⟩
    subst hw2
    exact ⟨rfl, fun c hc => by simp [setCol, hc]⟩
  · intro ids filters
    exact ⟨rfl, fun c hc => by simp [hs_delete, setCol, hc]⟩
  · intro w2 q k filters h
    unfold hs_search
    rw [h]
  · intro w2 filters h
    unfold hs_count
    rw [h]
  · intro w2 ss p h
    unfold hs_get_file_stream
    rw [h]

/-- A two-collection world used to witness the scoping of the facade. -/
def wScoped : World :=
  ⟨fun c => if c = "a" then [⟨"x", [1], []⟩] else [⟨"y", [2], []⟩], []⟩

/-- Witness for C1 at a concrete input: deleting through a facade bound to
collection `"a"` leaves collection `"b"` untouched. -/
theorem hostservices_collection_scoped_witness :
    (("b" : String) ≠ "a") ∧
    (hs_delete "a" (some ["x"]) none wScoped).2.store "b" = wScoped.store "b" :=
  ⟨by decide,
   ((hostservices_collection_scoped "a" wScoped).2.1 (some ["x"]) none).2 "b"
     (by decide)⟩

/-- C2: `delete_document` returns `true` exactly when vectors tied to the
document id existed (and then removes them all), returns `false` leaving
everything unchanged when the document did not exist (not an error), and
raises `hostServiceError` only when the underlying vector-store delete
itself errors. -/
theorem delete_document_found_iff (cid document_id : String) (w : World) :
    delete_document cid document_id true w = Except.error RAGError.hostServiceError ∧
    ∀ b w2, delete_document cid document_id false w = Except.ok (b, w2) →
      ((b = true) ↔
        ∃ e ∈ w.store cid, e.metadata.lookup "document_id" = some document_id) ∧
      (∀ e ∈ w2.store cid, ¬ e.metadata.lookup "document_id" = some document_id) ∧
      (b = false → ∀ c, w2.store c = w.store c) ∧
      (∀ c, c ≠ cid → w2.store c = w.store c) := by
  constructor
  · rfl
  · intro b w2 h
    unfold delete_document at h
    rw [if_neg (by simp)] at h
    simp only [Except.ok.injEq, Prod.mk.injEq] at h
    obtain ⟨hb, hw2⟩ := h
    have htarget : ∀ e : Entry,
        deleteTargets none (some [("document_id", document_id)]) e =
          (e.metadata.lookup "document_id" == some document_id) := by
      intro e
      simp [deleteTargets, matchesFilters]
    refine ⟨?_, ?_, ?_, ?_⟩
    · subst hb
      constructor
      · intro hdec
        have hpos := of_decide_eq_true hdec
        unfold hs_delete delete at hpos
        simp only at hpos
        have hne : (w.store cid).filter
            (fun e => deleteTargets none (some [("document_id", document_id)]) e) ≠ [] := by
          intro hnil
          rw [hnil] at hpos
          simp at hpos
        obtain ⟨e, he⟩ := List.exists_mem_of_ne_nil _ hne
        have hmem := List.mem_filter.mp he
        refine ⟨e, hmem.1, ?_⟩
        have := hmem.2
        rw [htarget] at this
        exact eq_of_beq this
      · intro hex
        obtain ⟨e, he, hdoc⟩ := hex
        apply decide_eq_true
        unfold hs_delete delete
        simp only
        have hmem : e ∈ (w.store cid).filter
            (fun e => deleteTargets none (some [("document_id", document_id)]) e) := by
          apply List.mem_filter.mpr
          exact ⟨he, by rw [htarget]; simp [hdoc]⟩
        have := List.length_pos.mpr (List.ne_nil_of_mem hmem)
        simpa using this
    · intro e he
      rw [← hw2] at he
      unfold hs_delete delete at he
      simp only [setCol, if_true] at he
      have := (List.mem_filter.mp he).2
      rw [htarget] at this
      intro hdoc
      rw [hdoc] at this
      simp at this
    · intro hbfalse c
      subst hb
      have hzero := of_decide_eq_false hbfalse
      have hcount : (hs_delete cid none (some [("document_id", document_id)]) w).1 = 0 := by
        omega
      unfold hs_delete delete at hcount
      simp only at hcount
      have hnil := List.eq_nil_of_length_eq_zero hcount
      have hall : ∀ e ∈ w.store cid,
          deleteTargets none (some [("document_id", document_id)]) e = false := by
        intro e he
        by_contra hne
        have htrue : deleteTargets none (some [("document_id", document_id)]) e = true := by
          cases hx : deleteTargets none (some [("document_id", document_id)]) e
          · exact absurd hx hne
          · rfl
        have : e ∈ (List.filter
            (fun e => deleteTargets none (some [("document_id", document_id)]) e)
            (w.store cid)) := List.mem_filter.mpr ⟨he, htrue⟩
        rw [hnil] at this
        exact absurd this (by simp)
      rw [← hw2]
      unfold hs_delete delete
      simp only [setCol]
      by_cases hc : c = cid
      · subst hc
        rw [if_pos rfl]
        rw [List.filter_eq_self]
        intro e he
        simp [hall e he]
      · rw [if_neg hc]
    · intro c hc
      rw [← hw2]
      unfold hs_delete delete
      simp only [setCol]
      rw [if_neg hc]

/-- A world holding one ingested chunk of document `"d"`, used to witness
`delete_document`. -/
def wDoc : World :=
  ⟨fun c => if c = "col" then [⟨"d_0", [1], [("document_id", "d")]⟩] else [], []⟩

/-- The world left after deleting document `"d"` through the facade. -/
def wDocAfter : World :=
  (hs_delete "col" none (some [("document_id", "d")]) wDoc).2

/-- Witness for C2 at a concrete input: deleting the present document `"d"`
returns `true`, and the pre-state indeed held a matching vector. -/
theorem delete_document_found_iff_witness :
    delete_document "col" "d" false wDoc = Except.ok (true, wDocAfter) ∧
    (true = true ↔
      ∃ e ∈ wDoc.store "col", e.metadata.lookup "document_id" = some "d") := by
  have heq : delete_document "col" "d" false wDoc = Except.ok (true, wDocAfter) := rfl
  exact ⟨heq, ((delete_document_found_iff "col" "d" wDoc).2 true wDocAfter heq).1⟩

theorem hs_upsert_single_store (cid id : String) (v : Vec) (m : Meta) (w : World) :
    (hs_upsert_single cid id v m w).store cid = upsertOne (w.store cid) id v m := by
  simp [hs_upsert_single, setCol]

theorem hs_upsert_single_store_frame (cid id : String) (v : Vec) (m : Meta)
    (w : World) (c : String) (hc : c ≠ cid) :
    (hs_upsert_single cid id v m w).store c = w.store c := by
  simp [hs_upsert_single, setCol, hc]

theorem writeChunks_store_frame (cid : String) :
    ∀ (ts : List (String × Vec × Meta)) (failAt : Option Nat) (w : World)
      (c : String), c ≠ cid →
      ((writeChunks cid ts failAt w).2).store c = w.store c := by
  intro ts
  induction ts with
  | nil => intro failAt w c hc; rfl
  | cons t ts ih =>
    intro failAt w c hc
    rcases failAt with _ | k
    · show ((writeChunks cid ts none _).2).store c = w.store c
      rw [ih none _ c hc]
      exact hs_upsert_single_store_frame cid t.1 t.2.1 t.2.2 w c hc
    · rcases k with _ | k
      · rfl
      · show ((writeChunks cid ts (some k) _).2).store c = w.store c
        rw [ih (some k) _ c hc]
        exact hs_upsert_single_store_frame cid t.1 t.2.1 t.2.2 w c hc

theorem upsertOne_preserves_doc (col : Collection) (id : String) (v : Vec)
    (m : Meta) (x d : String) (hm : m.lookup "document_id" = some d)
    (h : ∃ e ∈ col, e.id = x ∧ e.metadata.lookup "document_id" = some d) :
    ∃ e ∈ upsertOne col id v m,
      e.id = x ∧ e.metadata.lookup "document_id" = some d := by
  obtain ⟨e0, he0, hid, hdoc⟩ := h
  unfold upsertOne
  split
  · by_cases hb : (e0.id == id) = true
    · refine ⟨⟨id, v, m⟩, List.mem_map.mpr ⟨e0, he0, by rw [if_pos hb]⟩, ?_, hm⟩
      exact (eq_of_beq hb).symm.trans hid
    · exact ⟨e0, List.mem_map.mpr ⟨e0, he0, by rw [if_neg hb]⟩, hid, hdoc⟩
  · exact ⟨e0, List.mem_append.mpr (Or.inl he0), hid, hdoc⟩

theorem upsertOne_establishes (col : Collection) (id : String) (v : Vec)
    (m : Meta) :
    ∃ e ∈ upsertOne col id v m, e.id = id ∧ e.metadata = m := by
  unfold upsertOne
  split
  case isTrue h =>
    obtain ⟨e0, he0, hbeq⟩ := List.any_eq_true.mp h
    exact ⟨⟨id, v, m⟩, List.mem_map.mpr ⟨e0, he0, by rw [if_pos hbeq]⟩, rfl, rfl⟩
  case isFalse h =>
    exact ⟨⟨id, v, m⟩, List.mem_append.mpr (Or.inr (by simp)), rfl, rfl⟩

theorem writeChunks_preserves_doc (cid x d : String) :
    ∀ (ts : List (String × Vec × Meta)) (failAt : Option Nat) (w : World),
      (∀ t ∈ ts, (t.2.2).lookup "document_id" = some d) →
      (∃ e ∈ w.store cid, e.id = x ∧ e.metadata.lookup "document_id" = some d) →
      ∃ e ∈ (writeChunks cid ts failAt w).2.store cid,
        e.id = x ∧ e.metadata.lookup "document_id" = some d := by
  intro ts
  induction ts with
  | nil => intro failAt w hall h; exact h
  | cons t ts ih =>
    intro failAt w hall h
    have hstep : ∃ e ∈ (hs_upsert_single cid t.1 t.2.1 t.2.2 w).store cid,
        e.id = x ∧ e.metadata.lookup "document_id" = some d := by
      rw [hs_upsert_single_store]
      exact upsertOne_preserves_doc (w.store cid) t.1 t.2.1 t.2.2 x d
        (hall t (by simp)) h
    rcases failAt with _ | k
    · exact ih none _ (fun t2 ht2 => hall t2 (List.mem_cons_of_mem t ht2)) hstep
    · rcases k with _ | k
      · exact h
      · exact ih (some k) _ (fun t2 ht2 => hall t2 (List.mem_cons_of_mem t ht2)) hstep

theorem writeChunks_success_presence (cid d : String) :
    ∀ (ts : List (String × Vec × Meta)) (failAt : Option Nat) (w : World),
      (∀ t ∈ ts, (t.2.2).lookup "document_id" = some d) →
      (writeChunks cid ts failAt w).1 = true →
      ∀ t ∈ ts, ∃ e ∈ (writeChunks cid ts failAt w).2.store cid,
        e.id = t.1 ∧ e.metadata.lookup "document_id" = some d := by
  intro ts
  induction ts with
  | nil => intro failAt w hall hsucc t ht; exact absurd ht (by simp)
  | cons t0 ts ih =>
    intro failAt w hall hsucc t ht
    have htail : ∀ t2 ∈ ts, (t2.2.2).lookup "document_id" = some d :=
      fun t2 ht2 => hall t2 (List.mem_cons_of_mem t0 ht2)
    have hestab : ∃ e ∈ (hs_upsert_single cid t0.1 t0.2.1 t0.2.2 w).store cid,
        e.id = t0.1 ∧ e.metadata.lookup "document_id" = some d := by
      rw [hs_upsert_single_store]
      obtain ⟨e, he, hid, hmeta⟩ :=
        upsertOne_establishes (w.store cid) t0.1 t0.2.1 t0.2.2
      exact ⟨e, he, hid, by rw [hmeta]; exact hall t0 (by simp)⟩
    rcases failAt with _ | k
    · rcases List.mem_cons.mp ht with h1 | h1
      · subst h1
        exact writeChunks_preserves_doc cid t.1 d ts none _ htail hestab
      · exact ih none _ htail hsucc t h1
    · rcases k with _ | k
      · exact absurd hsucc (by simp [writeChunks])
      · rcases List.mem_cons.mp ht with h1 | h1
        · subst h1
          exact writeChunks_preserves_doc cid t.1 d ts (some k) _ htail hestab
        · exact ih (some k) _ htail hsucc t h1

theorem buildTriples_doc (d : String) (n : Nat) (vecs : List Vec) :
    ∀ t ∈ buildTriples d n vecs, (t.2.2).lookup "document_id" = some d := by
  intro t ht
  unfold buildTriples at ht
  obtain ⟨p, hp, hpt⟩ := List.mem_map.mp ht
  rw [← hpt]
  simp [chunkMeta, List.lookup]

theorem buildTriples_ids_sub (d : String) (n : Nat) (vecs : List Vec) :
    ∀ t ∈ buildTriples d n vecs, t.1 ∈ attemptIds d n := by
  intro t ht
  unfold buildTriples at ht
  obtain ⟨p, hp, hpt⟩ := List.mem_map.mp ht
  rw [← hpt]
  exact List.mem_map.mpr ⟨p.1, (List.of_mem_zip hp).1, rfl⟩

theorem mem_zip_of_mem_left {α β : Type} :
    ∀ (l1 : List α) (l2 : List β), l1.length = l2.length →
      ∀ a ∈ l1, ∃ b, (a, b) ∈ l1.zip l2 := by
  intro l1
  induction l1 with
  | nil => intro l2 h a ha; exact absurd ha (by simp)
  | cons x xs ih =>
    intro l2 h a ha
    cases l2 with
    | nil => simp at h
    | cons y ys =>
      rcases List.mem_cons.mp ha with h1 | h1
      · exact ⟨y, by simp [h1]⟩
      · obtain ⟨b, hb⟩ := ih ys (by simpa using h) a h1
        exact ⟨b, List.mem_cons_of_mem _ hb⟩

theorem attemptIds_in_triples (d : String) (n : Nat) (vecs : List Vec)
    (hlen : vecs.length = n) :
    ∀ id ∈ attemptIds d n, ∃ v m2, (id, v, m2) ∈ buildTriples d n vecs := by
  intro id hid
  obtain ⟨i, hi, hchunk⟩ := List.mem_map.mp hid
  obtain ⟨v, hv⟩ := mem_zip_of_mem_left (List.range n) vecs
    (by simp [hlen]) i hi
  refine ⟨v, chunkMeta d i, ?_⟩
  unfold buildTriples
  rw [← hchunk]
  exact List.mem_map.mpr ⟨(i, v), hv, rfl⟩

theorem filter_map_eq_filter {α : Type} (p : α → Bool) (f : α → α)
    (h1 : ∀ x, p (f x) = p x) (h2 : ∀ x, p x = true → f x = x) :
    ∀ l : List α, (l.map f).filter p = l.filter p := by
  intro l
  induction l with
  | nil => rfl
  | cons a as ih =>
    simp only [List.map_cons, List.filter_cons]
    cases hpa : p a with
    | true => simp [h1 a, hpa, h2 a hpa, ih]
    | false => simp [h1 a, hpa, ih]

theorem filter_keep_upsertOne (col : Collection) (id : String) (v : Vec)
    (m : Meta) (xs : List String) (hid : id ∈ xs) :
    (upsertOne col id v m).filter (fun e => !(deleteTargets (some xs) none e)) =
      col.filter (fun e => !(deleteTargets (some xs) none e)) := by
  have hcontains : xs.contains id = true := by simpa using hid
  unfold upsertOne
  split
  · apply filter_map_eq_filter
    · intro e
      by_cases hb : (e.id == id) = true
      · have he : e.id = id := eq_of_beq hb
        rw [if_pos hb]
        simp [deleteTargets_ids_only, he, hcontains]
      · rw [if_neg hb]
    · intro e hpe
      have hne : ¬ (e.id == id) = true := by
        intro hb
        have he : e.id = id := eq_of_beq hb
        rw [deleteTargets_ids_only] at hpe
        rw [he, hcontains] at hpe
        simp at hpe
      rw [if_neg hne]
  · rw [List.filter_append]
    have : deleteTargets (some xs) none (⟨id, v, m⟩ : Entry) = true := by
      rw [deleteTargets_ids_only]
      exact hcontains
    simp [this]

theorem writeChunks_rollback (cid : String) (xs : List String) :
    ∀ (ts : List (String × Vec × Meta)) (failAt : Option Nat) (w : World),
      (∀ t ∈ ts, t.1 ∈ xs) →
      ((writeChunks cid ts failAt w).2.store cid).filter
          (fun e => !(deleteTargets (some xs) none e)) =
        (w.store cid).filter (fun e => !(deleteTargets (some xs) none e)) := by
  intro ts
  induction ts with
  | nil => intro failAt w hall; rfl
  | cons t ts ih =>
    intro failAt w hall
    have htail : ∀ t2 ∈ ts, t2.1 ∈ xs :=
      fun t2 ht2 => hall t2 (List.mem_cons_of_mem t ht2)
    have hstep : ((hs_upsert_single cid t.1 t.2.1 t.2.2 w).store cid).filter
        (fun e => !(deleteTargets (some xs) none e)) =
        (w.store cid).filter (fun e => !(deleteTargets (some xs) none e)) := by
      rw [hs_upsert_single_store]
      exact filter_keep_upsertOne (w.store cid) t.1 t.2.1 t.2.2 xs
        (hall t (by simp))
    rcases failAt with _ | k
    · show ((writeChunks cid ts none _).2.store cid).filter _ = _
      rw [ih none _ htail, hstep]
    · rcases k with _ | k
      · rfl
      · show ((writeChunks cid ts (some k) _).2.store cid).filter _ = _
        rw [ih (some k) _ htail, hstep]

/-- C3: across every exit path of `ingest` — normal return, every natural
failure and every induced failure after the stream was opened — the handles
closed are exactly the handles successfully opened: each successful
`get_file_stream` is matched by exactly one `close_file_stream` on its
handle. -/
theorem ingest_releases_stream (cid : String) (emb : String → Option Vec)
    (ctx : IngestionContext) (faults : IngestFaults) (w : World)
    (ss : StreamState) :
    (ingest cid emb ctx faults w ss).closed = (ingest cid emb ctx faults w ss).opened := by
  unfold ingest
  cases hfs : hs_get_file_stream w ss ctx.storage_path with
  | none => rfl
  | some x =>
    obtain ⟨content, x2⟩ := x
    obtain ⟨hdl, ssx⟩ := x2
    dsimp only
    by_cases hp : faults.parseFails
    · rw [if_pos hp]
    · rw [if_neg hp]
      by_cases hz : ctx.chunk_size = 0
      · rw [if_pos hz]
      · rw [if_neg hz]
        cases hemb : embedDocuments emb (chunkText ctx.chunk_size content) with
        | none => rfl
        | some vecs =>
          dsimp only
          cases hwc : writeChunks cid
              (buildTriples ctx.document_id (chunkText ctx.chunk_size content).length vecs)
              faults.upsertFailAt w with
          | mk flag wx => cases flag <;> rfl

/-- C4: `ingest` is atomic with respect to the vector store: on success the
document's vectors — one per chunk id of the attempt, tagged with the
document id — are present in the bound collection, and on any failure
(provided the attempt's chunk ids were fresh, as ids are unique per
document) every collection, including the bound one, is exactly as before
the call: partial writes are rolled back before the error propagates. -/
theorem ingest_atomic (cid : String) (emb : String → Option Vec)
    (ctx : IngestionContext) (faults : IngestFaults) (w : World)
    (ss : StreamState)
    (hfresh : ∀ e ∈ w.store cid, ∀ i : Nat, e.id ≠ chunkId ctx.document_id i) :
    (∀ r, (ingest cid emb ctx faults w ss).result = Except.ok r →
      r.success = true ∧
      ∀ id ∈ attemptIds ctx.document_id r.chunk_count,
        ∃ e ∈ (ingest cid emb ctx faults w ss).world.store cid,
          e.id = id ∧ e.metadata.lookup "document_id" = some ctx.document_id) ∧
    (∀ err, (ingest cid emb ctx faults w ss).result = Except.error err →
      ∀ c, (ingest cid emb ctx faults w ss).world.store c = w.store c) := by
  unfold ingest
  cases hfs : hs_get_file_stream w ss ctx.storage_path with
  | none =>
    constructor
    · intro r hr
      exact absurd hr (by simp)
    · intro err herr c
      rfl
  | some x =>
    obtain ⟨content, x2⟩ := x
    obtain ⟨hdl, ssx⟩ := x2
    dsimp only
    by_cases hp : faults.parseFails
    · rw [if_pos hp]
      constructor
      · intro r hr
        exact absurd hr (by simp)
      · intro err herr c
        rfl
    · rw [if_neg hp]
      by_cases hz : ctx.chunk_size = 0
      · rw [if_pos hz]
        constructor
        · intro r hr
          exact absurd hr (by simp)
        · intro err herr c
          rfl
      · rw [if_neg hz]
        cases hemb : embedDocuments emb (chunkText ctx.chunk_size content) with
        | none =>
          constructor
          · intro r hr
            exact absurd hr (by simp)
          · intro err herr c
            rfl
        | some vecs =>
          dsimp only
          have hlen : vecs.length = (chunkText ctx.chunk_size content).length :=
            embedDocuments_length emb _ vecs hemb
          cases hwc : writeChunks cid
              (buildTriples ctx.document_id (chunkText ctx.chunk_size content).length vecs)
              faults.upsertFailAt w with
          | mk flag wx =>
            cases flag
            · -- failed mid-write: the attempt is rolled back
              constructor
              · intro r hr
                exact absurd hr (by simp)
              · intro err herr c
                dsimp only
                have hwx : (writeChunks cid
                    (buildTriples ctx.document_id
                      (chunkText ctx.chunk_size content).length vecs)
                    faults.upsertFailAt w).2 = wx := by rw [hwc]
                by_cases hc : c = cid
                · subst hc
                  show (setCol wx.store c
                    (delete (wx.store c)
                      (some (attemptIds ctx.document_id
                        (chunkText ctx.chunk_size content).length)) none).2) c =
                    w.store c
                  rw [setCol, if_pos rfl]
                  unfold delete
                  dsimp only
                  rw [← hwx]
                  rw [writeChunks_rollback c _ _ faults.upsertFailAt w
                    (buildTriples_ids_sub ctx.document_id _ vecs)]
                  rw [List.filter_eq_self]
                  intro e he
                  rw [deleteTargets_ids_only]
                  have hnotin : e.id ∉ attemptIds ctx.document_id
                      (chunkText ctx.chunk_size content).length := by
                    intro hmem
                    obtain ⟨i, _, hci⟩ := List.mem_map.mp hmem
                    exact hfresh e he i hci.symm
                  simp [hnotin]
                · show (setCol wx.store cid _) c = w.store c
                  rw [setCol, if_neg hc, ← hwx]
                  exact writeChunks_store_frame cid _ faults.upsertFailAt w c hc
            · -- success: every chunk of the attempt is present and tagged
              constructor
              · intro r hr
                dsimp only at hr
                have hrr : (⟨true, (chunkText ctx.chunk_size content).length,
                    ctx.document_id⟩ : IngestionResult) = r := by
                  simpa using hr
                subst hrr
                refine ⟨rfl, ?_⟩
                intro id hid
                dsimp only at hid ⊢
                obtain ⟨v, m2, ht⟩ := attemptIds_in_triples ctx.document_id
                  (chunkText ctx.chunk_size content).length vecs hlen id hid
                have hsucc : (writeChunks cid
                    (buildTriples ctx.document_id
                      (chunkText ctx.chunk_size content).length vecs)
                    faults.upsertFailAt w).1 = true := by rw [hwc]
                have hpres := writeChunks_success_presence cid ctx.document_id
                  (buildTriples ctx.document_id
                    (chunkText ctx.chunk_size content).length vecs)
                  faults.upsertFailAt w
                  (buildTriples_doc ctx.document_id _ vecs) hsucc
                  (id, v, m2) ht
                rw [hwc] at hpres
                exact hpres
              · intro err herr
                exact absurd herr (by simp)

/-- A world with an empty bound collection and one stored file, used to
witness `ingest`. -/
def wIngest : World := ⟨fun _ => [], [("path", ["hello"])]⟩

/-- Witness for C4 at a concrete input: ingesting the one-chunk file at
`"path"` with no faults succeeds and leaves the chunk vector `"doc_0"`,
tagged with its document id, in the bound collection. -/
theorem ingest_atomic_witness :
    (∀ e ∈ wIngest.store "col", ∀ i : Nat, e.id ≠ chunkId "doc" i) ∧
    (ingest "col" (fun t => some [(t.length : Rat)])
      ⟨"kb", "path", "doc", 1⟩ ⟨false, none⟩ wIngest ⟨0, []⟩).result =
      Except.ok ⟨true, 1, "doc"⟩ ∧
    (∃ e ∈ (ingest "col" (fun t => some [(t.length : Rat)])
        ⟨"kb", "path", "doc", 1⟩ ⟨false, none⟩ wIngest ⟨0, []⟩).world.store "col",
      e.id = chunkId "doc" 0 ∧ e.metadata.lookup "document_id" = some "doc") := by
  have hfresh : ∀ e ∈ wIngest.store "col", ∀ i : Nat, e.id ≠ chunkId "doc" i := by
    intro e he
    exact absurd he (by simp [wIngest])
  have hres : (ingest "col" (fun t => some [(t.length : Rat)])
      ⟨"kb", "path", "doc", 1⟩ ⟨false, none⟩ wIngest ⟨0, []⟩).result =
      Except.ok ⟨true, 1, "doc"⟩ := rfl
  refine ⟨hfresh, hres, ?_⟩
  have hmain := ((ingest_atomic "col" (fun t => some [(t.length : Rat)])
    ⟨"kb", "path", "doc", 1⟩ ⟨false, none⟩ wIngest ⟨0, []⟩ hfresh).1
    ⟨true, 1, "doc"⟩ hres).2
  have hid : chunkId "doc" 0 ∈ attemptIds "doc" 1 := by
    simp [attemptIds]
  exact hmain (chunkId "doc" 0) hid

end LangBotRAG
